import Mathlib

/-!
Verification of the `word_count` utility (src/src/main.rs).

The program reads a file, collects all lines, partitions them into chunks of
10000 lines, folds each chunk into a `BTreeMap<String, usize>` via
`process_chunk` (splitting each line on Unicode whitespace and incrementing a
per-word counter), and finally prints `"{word}: {count}"` for each entry in
ascending key order.

Shallow embedding choices:
* A `BTreeMap<String, usize>` is modelled as an association list
  `List (String × Nat)` kept strictly sorted by key (`Table.Sorted`); the
  entry-update `*map.entry(w).or_insert(0) += 1` is the ordered insert `bump`.
  Rust orders `String` keys by byte-wise comparison of their UTF-8 encodings,
  which coincides with lexicographic comparison of the codepoint sequences,
  i.e. with Lean's `<` on `String`.
* `str::split_whitespace` is `splitWhitespace` below, splitting on the Unicode
  White_Space property (`rustIsWhitespace`) and discarding empty fragments.
* `slice::chunks(10000)` is `chunks 10000`, written with a fuel counter so
  that it is structurally recursive and kernel-reducible.
* The fallible reading in `main` (`File::open(..).unwrap()`,
  `lines().collect::<Result<Vec<_>, _>>().unwrap()`) is modelled with
  `Except`: `runMain` takes the outcome of opening the file (either an error
  or the list of per-line read results) and produces either an error (the
  `unwrap` panic, exit code 101) or the full output.
* The 10 ms sleep between chunks has no observable effect on the output and
  is not modelled.
-/

namespace WordCount

/-- Character test used by Rust's `str::split_whitespace`: the Unicode
White_Space property (`char::is_whitespace`). -/
def rustIsWhitespace (c : Char) : Bool :=
  let n := c.toNat
  n == 0x09 || n == 0x0A || n == 0x0B || n == 0x0C || n == 0x0D ||
  n == 0x20 || n == 0x85 || n == 0xA0 || n == 0x1680 ||
  (0x2000 ≤ n && n ≤ 0x200A) ||
  n == 0x2028 || n == 0x2029 || n == 0x202F || n == 0x205F || n == 0x3000

/-- Worker for `splitWhitespace`: `acc` holds the (reversed) characters of the
word currently being scanned. -/
def splitWSAux : List Char → List Char → List (List Char)
  | [], acc => if acc.isEmpty then [] else [acc.reverse]
  | c :: cs, acc =>
    if rustIsWhitespace c then
      if acc.isEmpty then splitWSAux cs [] else acc.reverse :: splitWSAux cs []
    else
      splitWSAux cs (c :: acc)

/-- Model of Rust's `str::split_whitespace`: maximal runs of
non-whitespace characters, in order; empty fragments are discarded. -/
def splitWhitespace (l : List Char) : List (List Char) :=
  splitWSAux l []

/-- The words of one input line, as produced by `line.split_whitespace()`
(each borrowed `&str` fragment is turned into an owned `String` by
`word.to_string()` before being used as a map key). -/
def lineWords (s : String) : List String :=
  (splitWhitespace s.data).map (fun l => String.mk l)

/-- Model of `BTreeMap<String, usize>`: an association list that the
operations keep strictly sorted by key. -/
abbrev Table := List (String × Nat)

/-- Lookup in the table (Rust `word_counts.get(w)`): the value attached to the
first occurrence of the key. -/
def lookup : Table → String → Option Nat
  | [], _ => none
  | (k, v) :: t, w => if w = k then some v else lookup t w

/-- Count stored for a word, defaulting to `0` when absent. -/
def getCount (t : Table) (w : String) : Nat :=
  (lookup t w).getD 0

/-- The keys of the table, in storage order. -/
def keys (t : Table) : List String :=
  t.map Prod.fst

/-- Lexicographic comparison of character lists, mirroring Rust's `Ord` on
`String` (byte-wise comparison of the UTF-8 encodings, which orders strings
exactly like their codepoint sequences). Written structurally so that the
kernel can evaluate it on literals. -/
def listLtb : List Char → List Char → Bool
  | [], [] => false
  | [], _ :: _ => true
  | _ :: _, [] => false
  | a :: as, b :: bs =>
    if a < b then true else if b < a then false else listLtb as bs

/-- The key order of the `BTreeMap<String, usize>`. -/
def strLtb (s t : String) : Bool :=
  listLtb s.data t.data

/-- Model of `*word_counts.entry(word).or_insert(0) += 1` on the ordered map:
insert the key with count 1 when absent, increment its count otherwise. -/
def bump : Table → String → Table
  | [], w => [(w, 1)]
  | (k, v) :: t, w =>
    if strLtb w k then (w, 1) :: (k, v) :: t
    else if w = k then (k, v + 1) :: t
    else (k, v) :: bump t w

/-- Model of `process_chunk(chunk, word_counts)` from src/src/main.rs:
for each line of the chunk, for each whitespace-separated word of the line,
bump the word's counter. -/
def process_chunk (chunk : List String) (t : Table) : Table :=
  chunk.foldl (fun acc line => (lineWords line).foldl bump acc) t

/-- Worker for `chunks`, structurally recursive on a fuel counter (any fuel
at least the list's length gives the true chunk decomposition). -/
def chunksGo (n : Nat) : Nat → List α → List (List α)
  | _, [] => []
  | 0, _ :: _ => []
  | fuel + 1, x :: xs => (x :: xs).take n :: chunksGo n fuel ((x :: xs).drop n)

/-- Model of `slice::chunks(n)` as used by `main` (`n = 10000 > 0`):
consecutive sub-slices of length `n`, the last possibly shorter; an empty
slice yields no chunks. -/
def chunks (n : Nat) (l : List α) : List (List α) :=
  chunksGo n l.length l

/-- Concatenation of the words of all lines, in input order. -/
def wordsOf (lines : List String) : List String :=
  (lines.map lineWords).flatten

/-- The driver's folding loop: `for chunk in ... { process_chunk(chunk, &mut word_counts) }`. -/
def foldBatches (bs : List (List String)) (t : Table) : Table :=
  bs.foldl (fun acc c => process_chunk c acc) t

/-- The final frequency table produced by `main` for a given list of input
lines: fold every 10000-line chunk into the initially empty map. -/
def wordCounts (lines : List String) : Table :=
  foldBatches (chunks 10000 lines) []

/-- The printed output: one line `"{word}: {count}"` per table entry, in
storage (ascending key) order. -/
def output (t : Table) : List String :=
  t.map (fun p => p.1 ++ ": " ++ toString p.2)

/-- Model of `reader.lines().collect::<Result<Vec<_>, _>>()`: collect
per-line read results, stopping at the first error. -/
def collectLines {ε : Type} : List (Except ε String) → Except ε (List String)
  | [] => Except.ok []
  | Except.error e :: _ => Except.error e
  | Except.ok s :: rs =>
    match collectLines rs with
    | Except.error e => Except.error e
    | Except.ok ls => Except.ok (s :: ls)

/-- Model of `main`: `openResult` is the outcome of `File::open` (an error, or
the list of per-line read results). Each `unwrap` turns an error into an
aborted run (`Except.error`); on success the full sorted output is produced. -/
def runMain {ε : Type} (openResult : Except ε (List (Except ε String))) :
    Except ε (List String) :=
  match openResult with
  | Except.error e => Except.error e
  | Except.ok rs =>
    match collectLines rs with
    | Except.error e => Except.error e
    | Except.ok lines => Except.ok (output (wordCounts lines))

/-- Process exit code of a run: 0 on success, 101 (the Rust panic exit code
produced by `unwrap`) on an aborted run. -/
def exitCode {ε α : Type} : Except ε α → Nat
  | Except.ok _ => 0
  | Except.error _ => 101

/-- What actually reaches standard output: the table lines on success,
nothing on an aborted run. -/
def emitted {ε : Type} : Except ε (List String) → List String
  | Except.ok out => out
  | Except.error _ => []

/-- The representation invariant of `BTreeMap`: keys strictly increasing. -/
abbrev Table.Sorted (t : Table) : Prop :=
  List.Pairwise (fun a b => a.1 < b.1) t

/-- Adding `n` further occurrences to an optional stored count: the key stays
absent when `n = 0`, otherwise the stored count (default 0) grows by `n`. -/
def addCount (o : Option Nat) (n : Nat) : Option Nat :=
  if n = 0 then o else some (o.getD 0 + n)

/-! ## The key order: `strLtb` agrees with the lexicographic order on `String` -/

/-- `listLtb` decides the lexicographic strict order on character lists. -/
theorem listLtb_iff (as : List Char) :
    ∀ bs, listLtb as bs = true ↔ List.Lex (· < ·) as bs := by
  induction as with
  | nil =>
    intro bs
    cases bs with
    | nil =>
      simp only [listLtb, Bool.false_eq_true, false_iff]
      exact List.Lex.not_nil_right _ _
    | cons b bs =>
      simp only [listLtb, true_iff]
      exact List.Lex.nil
  | cons a as ih =>
    intro bs
    cases bs with
    | nil =>
      simp only [listLtb, Bool.false_eq_true, false_iff]
      exact List.Lex.not_nil_right _ _
    | cons b bs =>
      by_cases hab : a < b
      · simp only [listLtb, hab, if_true, true_iff]
        exact List.Lex.rel hab
      · by_cases hba : b < a
        · simp only [listLtb, hab, if_false, hba, if_true, Bool.false_eq_true,
            false_iff]
          intro h
          cases h with
          | rel h => exact hab h
          | cons h => exact lt_irrefl a hba
        · have heq : a = b := le_antisymm (not_lt.mp hba) (not_lt.mp hab)
          subst heq
          simp only [listLtb, lt_irrefl, if_false]
          rw [List.Lex.cons_iff]
          exact ih bs

/-- `strLtb` decides Lean's `<` on `String` (itself the lexicographic order
on the codepoint sequences, which is Rust's key order on `String`). -/
theorem strLtb_iff (s t : String) : strLtb s t = true ↔ s < t := by
  rw [String.lt_iff_toList_lt]
  exact listLtb_iff s.data t.data

theorem strLtb_eq_false_iff (s t : String) : strLtb s t = false ↔ ¬s < t := by
  rw [Bool.eq_false_iff, Ne, strLtb_iff]

/-! ## Lookup and membership basics -/

theorem lookup_eq_none_iff (t : Table) (w : String) :
    lookup t w = none ↔ w ∉ keys t := by
  induction t with
  | nil => simp [lookup, keys]
  | cons p t ih =>
    obtain ⟨k, v⟩ := p
    by_cases h : w = k <;> simp [lookup, keys, h, ih]

theorem not_mem_keys_of_forall_lt (t : Table) (w : String)
    (h : ∀ p ∈ t, w < p.1) : w ∉ keys t := by
  intro hmem
  obtain ⟨p, hp, hpw⟩ := List.mem_map.mp hmem
  exact lt_irrefl w (hpw ▸ h p hp)

theorem lookup_mem (t : Table) (k : String) (v : Nat)
    (h : lookup t k = some v) : (k, v) ∈ t := by
  induction t with
  | nil => simp [lookup] at h
  | cons p t ih =>
    obtain ⟨k', v'⟩ := p
    by_cases hk : k = k'
    · subst hk
      simp only [lookup, if_true, eq_self_iff_true, Option.some.injEq] at h
      subst h
      exact List.mem_cons_self _ _
    · simp only [lookup, if_neg hk] at h
      exact List.mem_cons_of_mem _ (ih h)

theorem mem_lookup_of_sorted (t : Table) (k : String) (v : Nat)
    (hs : Table.Sorted t) (h : (k, v) ∈ t) : lookup t k = some v := by
  induction t with
  | nil => simp at h
  | cons p t ih =>
    obtain ⟨k', v'⟩ := p
    rcases List.mem_cons.mp h with h1 | h1
    · obtain ⟨rfl, rfl⟩ := Prod.mk.injEq .. ▸ h1
      simp [lookup]
    · have hk : k' < k := (List.pairwise_cons.mp hs).1 _ h1
      have : k ≠ k' := fun he => lt_irrefl k (he ▸ hk)
      simp only [lookup, if_neg this]
      exact ih (List.pairwise_cons.mp hs).2 h1

/-! ## Behaviour of one entry update (`bump`) -/

theorem bump_cons (k : String) (v : Nat) (t : Table) (w : String) :
    bump ((k, v) :: t) w =
      if strLtb w k then (w, 1) :: (k, v) :: t
      else if w = k then (k, v + 1) :: t
      else (k, v) :: bump t w := rfl

theorem mem_keys_bump (t : Table) (w x : String) :
    x ∈ keys (bump t w) ↔ x = w ∨ x ∈ keys t := by
  induction t with
  | nil => simp [bump, keys]
  | cons p t ih =>
    obtain ⟨k, v⟩ := p
    by_cases hb : strLtb w k = true
    · rw [bump_cons, if_pos hb]
      simp only [keys, List.map_cons, List.mem_cons]
    · by_cases he : w = k
      · subst he
        rw [bump_cons, if_neg hb, if_pos rfl]
        simp only [keys, List.map_cons, List.mem_cons]
        tauto
      · rw [bump_cons, if_neg hb, if_neg he]
        simp only [keys, List.map_cons, List.mem_cons] at ih ⊢
        tauto

theorem bump_sorted (t : Table) (w : String) (hs : Table.Sorted t) :
    Table.Sorted (bump t w) := by
  induction t with
  | nil => simp [bump]
  | cons p t ih =>
    obtain ⟨k, v⟩ := p
    obtain ⟨hhead, htail⟩ := List.pairwise_cons.mp hs
    rcases lt_trichotomy w k with hlt | heq | hgt
    · have hb : strLtb w k = true := (strLtb_iff w k).mpr hlt
      rw [bump_cons, if_pos hb]
      refine List.pairwise_cons.mpr ⟨?_, hs⟩
      intro p hp
      rcases List.mem_cons.mp hp with rfl | hp'
      · exact hlt
      · exact lt_trans hlt (hhead p hp')
    · subst heq
      have hb : ¬strLtb w w = true :=
        fun h => lt_irrefl w ((strLtb_iff w w).mp h)
      rw [bump_cons, if_neg hb, if_pos rfl]
      exact List.pairwise_cons.mpr ⟨hhead, htail⟩
    · have hb : ¬strLtb w k = true :=
        fun h => asymm hgt ((strLtb_iff w k).mp h)
      have he : w ≠ k := fun h => lt_irrefl k (h ▸ hgt)
      rw [bump_cons, if_neg hb, if_neg he]
      refine List.pairwise_cons.mpr ⟨?_, ih htail⟩
      intro p hp
      have hpk : p.1 ∈ keys (bump t w) := List.mem_map_of_mem Prod.fst hp
      rcases (mem_keys_bump t w p.1).mp hpk with h1 | h1
      · exact h1 ▸ hgt
      · obtain ⟨q, hq, hq1⟩ := List.mem_map.mp h1
        exact hq1 ▸ hhead q hq

theorem bump_lookup (t : Table) (w x : String) (hs : Table.Sorted t) :
    lookup (bump t w) x =
      if x = w then some ((lookup t w).getD 0 + 1) else lookup t x := by
  induction t with
  | nil => by_cases h : x = w <;> simp [bump, lookup, h]
  | cons p t ih =>
    obtain ⟨k, v⟩ := p
    obtain ⟨hhead, htail⟩ := List.pairwise_cons.mp hs
    rcases lt_trichotomy w k with hlt | heq | hgt
    · have hb : strLtb w k = true := (strLtb_iff w k).mpr hlt
      have hwk : w ≠ k := ne_of_lt hlt
      have hnone : lookup ((k, v) :: t) w = none := by
        rw [lookup_eq_none_iff]
        apply not_mem_keys_of_forall_lt
        intro p hp
        rcases List.mem_cons.mp hp with rfl | hp'
        · exact hlt
        · exact lt_trans hlt (hhead p hp')
      rw [bump_cons, if_pos hb]
      by_cases hx : x = w
      · subst hx
        rw [if_pos rfl, hnone]
        simp [lookup]
      · show (if x = w then some 1 else lookup ((k, v) :: t) x) = _
        rw [if_neg hx, if_neg hx]
    · subst heq
      have hb : ¬strLtb w w = true :=
        fun h => lt_irrefl w ((strLtb_iff w w).mp h)
      rw [bump_cons, if_neg hb, if_pos rfl]
      by_cases hx : x = w
      · subst hx
        rw [if_pos rfl]
        simp [lookup]
      · show (if x = w then some (v + 1) else lookup t x) = _
        rw [if_neg hx, if_neg hx]
        show _ = (if x = w then some v else lookup t x)
        rw [if_neg hx]
    · have hb : ¬strLtb w k = true :=
        fun h => asymm hgt ((strLtb_iff w k).mp h)
      have hwk : w ≠ k := fun h => lt_irrefl k (h ▸ hgt)
      rw [bump_cons, if_neg hb, if_neg hwk]
      by_cases hx : x = k
      · subst hx
        have hxw : x ≠ w := fun h => hwk h.symm
        show (if x = x then some v else lookup (bump t w) x) = _
        rw [if_pos rfl, if_neg hxw]
        show _ = (if x = x then some v else lookup t x)
        rw [if_pos rfl]
      · show (if x = k then some v else lookup (bump t w) x) = _
        rw [if_neg hx, ih htail]
        by_cases hxw : x = w
        · subst hxw
          rw [if_pos rfl, if_pos rfl]
          show some ((lookup t x).getD 0 + 1) =
            some (((if x = k then some v else lookup t x)).getD 0 + 1)
          rw [if_neg hx]
        · rw [if_neg hxw, if_neg hxw]
          show lookup t x = (if x = k then some v else lookup t x)
          rw [if_neg hx]

/-! ## Folding a list of words / a chunk / all batches -/

theorem foldl_bump_sorted (ws : List String) (t : Table) (hs : Table.Sorted t) :
    Table.Sorted (ws.foldl bump t) := by
  induction ws generalizing t with
  | nil => exact hs
  | cons w ws ih => exact ih _ (bump_sorted t w hs)

theorem lookup_foldl_bump (ws : List String) (t : Table) (x : String)
    (hs : Table.Sorted t) :
    lookup (ws.foldl bump t) x = addCount (lookup t x) (ws.count x) := by
  induction ws generalizing t with
  | nil => simp [addCount]
  | cons w ws ih =>
    rw [List.foldl_cons, ih (bump t w) (bump_sorted t w hs),
      bump_lookup t w x hs]
    by_cases hx : x = w
    · subst hx
      simp only [List.count_cons, beq_self_eq_true, if_true, if_pos rfl]
      by_cases h0 : ws.count x = 0
      · simp [addCount, h0, Option.getD]
      · simp only [addCount, h0, if_false, Nat.add_eq_zero, one_ne_zero,
          and_false, Option.getD_some]
        congr 1
        omega
    · have hbeq : (w == x) = false := beq_false_of_ne fun h => hx h.symm
      simp [List.count_cons, hbeq, hx]

theorem mem_keys_foldl_bump (ws : List String) (t : Table) (x : String)
    (h : x ∈ keys (ws.foldl bump t)) : x ∈ keys t ∨ x ∈ ws := by
  induction ws generalizing t with
  | nil => exact Or.inl h
  | cons w ws ih =>
    rcases ih (bump t w) h with h1 | h1
    · rcases (mem_keys_bump t w x).mp h1 with rfl | h2
      · exact Or.inr (List.mem_cons_self _ _)
      · exact Or.inl h2
    · exact Or.inr (List.mem_cons_of_mem _ h1)

/-! ## `process_chunk` as a fold over the chunk's words -/

theorem process_chunk_eq_foldl (c : List String) (t : Table) :
    process_chunk c t = (wordsOf c).foldl bump t := by
  induction c generalizing t with
  | nil => rfl
  | cons l c ih =>
    simp only [process_chunk, List.foldl_cons, wordsOf, List.map_cons,
      List.flatten_cons, List.foldl_append]
    simp only [process_chunk, wordsOf] at ih
    exact ih _

theorem process_chunk_sorted (c : List String) (t : Table)
    (hs : Table.Sorted t) : Table.Sorted (process_chunk c t) := by
  rw [process_chunk_eq_foldl]
  exact foldl_bump_sorted _ _ hs

theorem lookup_process_chunk (c : List String) (t : Table) (x : String)
    (hs : Table.Sorted t) :
    lookup (process_chunk c t) x = addCount (lookup t x) ((wordsOf c).count x) := by
  rw [process_chunk_eq_foldl]
  exact lookup_foldl_bump _ _ _ hs

theorem process_chunk_append (a b : List String) (t : Table) :
    process_chunk (a ++ b) t = process_chunk b (process_chunk a t) := by
  simp [process_chunk, List.foldl_append]

theorem foldBatches_eq (bs : List (List String)) (t : Table) :
    foldBatches bs t = process_chunk bs.flatten t := by
  induction bs generalizing t with
  | nil => rfl
  | cons c bs ih =>
    simp only [foldBatches, List.foldl_cons, List.flatten_cons,
      process_chunk_append]
    simp only [foldBatches] at ih
    exact ih _

/-! ## The chunk decomposition -/

theorem chunksGo_flatten {α : Type} (n : Nat) (hn : 0 < n) :
    ∀ (fuel : Nat) (l : List α), l.length ≤ fuel →
      (chunksGo n fuel l).flatten = l := by
  intro fuel
  induction fuel with
  | zero =>
    intro l hl
    have : l = [] := List.eq_nil_of_length_eq_zero (Nat.le_zero.mp hl)
    subst this
    rfl
  | succ fuel ih =>
    intro l hl
    cases l with
    | nil => rfl
    | cons x xs =>
      simp only [chunksGo, List.flatten_cons]
      rw [ih]
      · exact List.take_append_drop n (x :: xs)
      · rw [List.length_drop]
        simp only [List.length_cons] at hl ⊢
        omega

theorem chunks_flatten {α : Type} (n : Nat) (hn : 0 < n) (l : List α) :
    (chunks n l).flatten = l :=
  chunksGo_flatten n hn l.length l le_rfl

theorem chunksGo_mem_length {α : Type} (n : Nat) (hn : 0 < n) :
    ∀ (fuel : Nat) (l : List α), l.length ≤ fuel →
      ∀ b ∈ chunksGo n fuel l, b.length ≤ n ∧ b ≠ [] := by
  intro fuel
  induction fuel with
  | zero =>
    intro l hl b hb
    have : l = [] := List.eq_nil_of_length_eq_zero (Nat.le_zero.mp hl)
    subst this
    simp [chunksGo] at hb
  | succ fuel ih =>
    intro l hl b hb
    cases l with
    | nil => simp [chunksGo] at hb
    | cons x xs =>
      simp only [chunksGo, List.mem_cons] at hb
      rcases hb with rfl | hb
      · constructor
        · simp
        · have : (List.take n (x :: xs)).length ≠ 0 := by
            rw [List.length_take]
            simp only [List.length_cons]
            omega
          intro he
          exact this (he ▸ rfl)
      · refine ih _ ?_ b hb
        rw [List.length_drop]
        simp only [List.length_cons] at hl ⊢
        omega

theorem chunksGo_dropLast_length {α : Type} (n : Nat) (hn : 0 < n) :
    ∀ (fuel : Nat) (l : List α), l.length ≤ fuel →
      ∀ b ∈ (chunksGo n fuel l).dropLast, b.length = n := by
  intro fuel
  induction fuel with
  | zero =>
    intro l hl b hb
    have : l = [] := List.eq_nil_of_length_eq_zero (Nat.le_zero.mp hl)
    subst this
    simp [chunksGo] at hb
  | succ fuel ih =>
    intro l hl b hb
    cases l with
    | nil => simp [chunksGo] at hb
    | cons x xs =>
      simp only [chunksGo] at hb
      cases hrest : chunksGo n fuel ((x :: xs).drop n) with
      | nil => simp [hrest] at hb
      | cons c cs =>
        rw [hrest, List.dropLast_cons₂, List.mem_cons] at hb
        have hlen : ((x :: xs).drop n).length ≤ fuel := by
          rw [List.length_drop]
          simp only [List.length_cons] at hl ⊢
          omega
        rcases hb with rfl | hb
        · -- the first chunk is full because a later chunk exists
          have hdrop : (x :: xs).drop n ≠ [] := by
            intro he
            rw [he] at hrest
            simp [chunksGo] at hrest
          have : n < (x :: xs).length := by
            by_contra hle
            exact hdrop (List.drop_eq_nil_of_le (not_lt.mp hle))
          rw [List.length_take]
          omega
        · exact ih _ hlen b (hrest ▸ hb)

/-! ## The final table -/

theorem wordCounts_eq (lines : List String) :
    wordCounts lines = process_chunk lines [] := by
  rw [wordCounts, foldBatches_eq, chunks_flatten 10000 (by omega)]

theorem wordCounts_sorted (lines : List String) :
    Table.Sorted (wordCounts lines) := by
  rw [wordCounts_eq]
  exact process_chunk_sorted _ _ List.Pairwise.nil

theorem lookup_wordCounts (lines : List String) (w : String) :
    lookup (wordCounts lines) w =
      if (wordsOf lines).count w = 0 then none
      else some ((wordsOf lines).count w) := by
  rw [wordCounts_eq, lookup_process_chunk _ _ _ List.Pairwise.nil]
  simp [lookup, addCount]

/-! ## Extensionality of sorted tables -/

theorem lookup_tail_self_none (k : String) (v : Nat) (t : Table)
    (hs : Table.Sorted ((k, v) :: t)) : lookup t k = none := by
  rw [lookup_eq_none_iff]
  apply not_mem_keys_of_forall_lt
  exact (List.pairwise_cons.mp hs).1

theorem table_ext (t₁ t₂ : Table) (h₁ : Table.Sorted t₁) (h₂ : Table.Sorted t₂)
    (h : ∀ w, lookup t₁ w = lookup t₂ w) : t₁ = t₂ := by
  induction t₁ generalizing t₂ with
  | nil =>
    cases t₂ with
    | nil => rfl
    | cons q t₂ =>
      obtain ⟨k, v⟩ := q
      have hk := h k
      simp [lookup] at hk
  | cons p t₁ ih =>
    obtain ⟨k₁, v₁⟩ := p
    cases t₂ with
    | nil =>
      have hk := h k₁
      simp [lookup] at hk
    | cons q t₂ =>
      obtain ⟨k₂, v₂⟩ := q
      have hlk₁ : lookup ((k₁, v₁) :: t₁) k₁ = some v₁ := by simp [lookup]
      have hlk₂ : lookup ((k₂, v₂) :: t₂) k₂ = some v₂ := by simp [lookup]
      have hk : k₁ = k₂ := by
        rcases lt_trichotomy k₁ k₂ with hlt | heq | hgt
        · exfalso
          have h1 := (h k₁).symm.trans hlk₁
          have hne : k₁ ≠ k₂ := ne_of_lt hlt
          rw [lookup, if_neg hne] at h1
          have h2 : lookup t₂ k₁ = none := by
            rw [lookup_eq_none_iff]
            apply not_mem_keys_of_forall_lt
            intro p hp
            exact lt_trans hlt ((List.pairwise_cons.mp h₂).1 p hp)
          rw [h2] at h1
          exact Option.noConfusion h1
        · exact heq
        · exfalso
          have h1 := (h k₂).trans hlk₂
          have hne : k₂ ≠ k₁ := ne_of_lt hgt
          rw [lookup, if_neg hne] at h1
          have h2 : lookup t₁ k₂ = none := by
            rw [lookup_eq_none_iff]
            apply not_mem_keys_of_forall_lt
            intro p hp
            exact lt_trans hgt ((List.pairwise_cons.mp h₁).1 p hp)
          rw [h2] at h1
          exact Option.noConfusion h1
      subst hk
      have hv : v₁ = v₂ := by
        have h1 := (h k₁).symm.trans hlk₁
        rw [hlk₂] at h1
        exact (Option.some.inj h1).symm
      subst hv
      have htails : ∀ w, lookup t₁ w = lookup t₂ w := by
        intro w
        by_cases hw : w = k₁
        · subst hw
          rw [lookup_tail_self_none _ _ _ h₁, lookup_tail_self_none _ _ _ h₂]
        · have h1 := h w
          rw [lookup, if_neg hw, lookup, if_neg hw] at h1
          exact h1
      rw [ih t₂ (List.pairwise_cons.mp h₁).2 (List.pairwise_cons.mp h₂).2 htails]

/-! ## Words produced by whitespace splitting are nonempty and contain no
whitespace -/

theorem splitWSAux_words (l : List Char) :
    ∀ (acc : List Char), (∀ c ∈ acc, rustIsWhitespace c = false) →
      ∀ w ∈ splitWSAux l acc,
        w ≠ [] ∧ ∀ c ∈ w, rustIsWhitespace c = false := by
  induction l with
  | nil =>
    intro acc hacc w hw
    by_cases h : acc.isEmpty
    · simp [splitWSAux, h] at hw
    · simp only [splitWSAux, h, Bool.false_eq_true, if_false,
        List.mem_singleton] at hw
      subst hw
      refine ⟨?_, fun c hc => hacc c (List.mem_reverse.mp hc)⟩
      rw [Ne, List.reverse_eq_nil_iff]
      intro he
      exact h (he ▸ rfl)
  | cons c cs ih =>
    intro acc hacc w hw
    by_cases hws : rustIsWhitespace c
    · by_cases h : acc.isEmpty
      · rw [show splitWSAux (c :: cs) acc = splitWSAux cs [] by
          simp [splitWSAux, hws, h]] at hw
        exact ih [] (by simp) w hw
      · rw [show splitWSAux (c :: cs) acc =
            acc.reverse :: splitWSAux cs [] by
          simp [splitWSAux, hws, h]] at hw
        rcases List.mem_cons.mp hw with rfl | hw'
        · refine ⟨?_, fun d hd => hacc d (List.mem_reverse.mp hd)⟩
          rw [Ne, List.reverse_eq_nil_iff]
          intro he
          exact h (he ▸ rfl)
        · exact ih [] (by simp) w hw'
    · rw [show splitWSAux (c :: cs) acc = splitWSAux cs (c :: acc) by
        simp [splitWSAux, hws]] at hw
      refine ih (c :: acc) ?_ w hw
      intro d hd
      rcases List.mem_cons.mp hd with rfl | hd'
      · exact Bool.eq_false_iff.mpr hws
      · exact hacc d hd'

theorem lineWords_wf (s : String) :
    ∀ w ∈ lineWords s, w ≠ "" ∧ ∀ c ∈ w.data, rustIsWhitespace c = false := by
  intro w hw
  obtain ⟨l, hl, rfl⟩ := List.mem_map.mp hw
  have hwf := splitWSAux_words s.data [] (by simp) l hl
  refine ⟨?_, hwf.2⟩
  intro he
  exact hwf.1 (congrArg String.data he)

theorem wordsOf_wf (lines : List String) :
    ∀ w ∈ wordsOf lines, w ≠ "" ∧ ∀ c ∈ w.data, rustIsWhitespace c = false := by
  intro w hw
  rw [wordsOf, List.mem_flatten] at hw
  obtain ⟨ws, hws, hmem⟩ := hw
  obtain ⟨s, _, rfl⟩ := List.mem_map.mp hws
  exact lineWords_wf s w hmem

/-! ## Counting helpers -/

theorem addCount_getD (o : Option Nat) (n : Nat) :
    (addCount o n).getD 0 = o.getD 0 + n := by
  by_cases h : n = 0 <;> simp [addCount, h]

theorem addCount_ne_none (o : Option Nat) (n : Nat) (h : o ≠ none) :
    addCount o n ≠ none := by
  by_cases hn : n = 0 <;> simp [addCount, hn, h]

theorem getCount_process_chunk (c : List String) (t : Table) (x : String)
    (hs : Table.Sorted t) :
    getCount (process_chunk c t) x = getCount t x + (wordsOf c).count x := by
  rw [getCount, lookup_process_chunk c t x hs, addCount_getD, getCount]

theorem mem_keys_process_chunk_of_mem (c : List String) (t : Table)
    (hs : Table.Sorted t) (w : String) (hw : w ∈ keys t) :
    w ∈ keys (process_chunk c t) := by
  have h1 : lookup t w ≠ none := fun h => ((lookup_eq_none_iff t w).mp h) hw
  have h2 : lookup (process_chunk c t) w ≠ none := by
    rw [lookup_process_chunk c t w hs]
    exact addCount_ne_none _ _ h1
  by_contra hnot
  exact h2 ((lookup_eq_none_iff _ w).mpr hnot)

/-! ## The error path of `main` -/

theorem collectLines_error {ε : Type} (rs : List (Except ε String)) (e : ε)
    (h : Except.error e ∈ rs) : ∃ e', collectLines rs = Except.error e' := by
  induction rs with
  | nil => simp at h
  | cons r rs ih =>
    cases r with
    | error e₀ => exact ⟨e₀, rfl⟩
    | ok s =>
      rcases List.mem_cons.mp h with h1 | h1
      · exact absurd h1 (by simp)
      · obtain ⟨e', he'⟩ := ih h1
        refine ⟨e', ?_⟩
        simp [collectLines, he']

theorem collectLines_ok_iff {ε : Type} (rs : List (Except ε String)) :
    (∃ ls, collectLines rs = Except.ok ls) ↔ ∀ r ∈ rs, ∃ s, r = Except.ok s := by
  induction rs with
  | nil => simp [collectLines]
  | cons r rs ih =>
    cases r with
    | error e =>
      constructor
      · rintro ⟨ls, h⟩
        exact Except.noConfusion h
      · intro h
        obtain ⟨s, hs⟩ := h (Except.error e) (List.mem_cons_self _ _)
        exact Except.noConfusion hs
    | ok s =>
      cases hc : collectLines rs with
      | error e =>
        have hval : collectLines (Except.ok s :: rs) = Except.error e := by
          simp [collectLines, hc]
        rw [hval]
        constructor
        · rintro ⟨ls, h⟩
          exact Except.noConfusion h
        · intro h
          obtain ⟨ls, hls⟩ := ih.mpr fun r hr => h r (List.mem_cons_of_mem _ hr)
          rw [hc] at hls
          exact Except.noConfusion hls
      | ok ls =>
        have hval : collectLines (Except.ok s :: rs) = Except.ok (s :: ls) := by
          simp [collectLines, hc]
        rw [hval]
        constructor
        · intro _ r hr
          rcases List.mem_cons.mp hr with rfl | hr'
          · exact ⟨s, rfl⟩
          · exact (ih.mp ⟨ls, hc⟩) r hr'
        · intro _
          exact ⟨s :: ls, rfl⟩

/-! ## The claims -/

/-- Claim C1: for every input and every word `w`, the count in the final table
is exactly the number of maximal whitespace-delimited occurrences of the exact
(case-sensitive) string `w` across the whole input: the key is absent when `w`
never occurs, otherwise it is stored with exactly its occurrence count;
moreover one `bump` inserts an absent key with count 1 and increments a
present key's count by 1. -/
theorem c1_count_exact :
    (∀ (lines : List String) (w : String),
        lookup (wordCounts lines) w =
          if (wordsOf lines).count w = 0 then none
          else some ((wordsOf lines).count w)) ∧
    (∀ (t : Table) (w : String), Table.Sorted t → w ∉ keys t →
        lookup (bump t w) w = some 1) ∧
    (∀ (t : Table) (w : String) (v : Nat), Table.Sorted t →
        lookup t w = some v → lookup (bump t w) w = some (v + 1)) := by
  refine ⟨fun lines w => lookup_wordCounts lines w, ?_, ?_⟩
  · intro t w hs hmem
    rw [bump_lookup t w w hs, if_pos rfl, (lookup_eq_none_iff t w).mpr hmem]
    rfl
  · intro t w v hs hv
    rw [bump_lookup t w w hs, if_pos rfl, hv]
    rfl

theorem c1_count_exact_witness :
    lookup (bump [] "a") "a" = some 1 :=
  c1_count_exact.2.1 [] "a" List.Pairwise.nil (by simp [keys])

/-- Claim C2: the emitted output is `"<word>: <count>"` lines, one per table
entry, with the keys strictly increasing in the lexicographic
(byte/codepoint) order, hence without duplicates; there is no header and no
trailing summary line (the output has exactly as many lines as the table has
entries). -/
theorem c2_output_sorted_format (lines : List String) :
    List.Pairwise (· < ·) (keys (wordCounts lines)) ∧
    (keys (wordCounts lines)).Nodup ∧
    output (wordCounts lines) =
      (wordCounts lines).map (fun p => p.1 ++ ": " ++ toString p.2) ∧
    (output (wordCounts lines)).length = (wordCounts lines).length := by
  have hs := wordCounts_sorted lines
  have hp : List.Pairwise (· < ·) (keys (wordCounts lines)) := by
    rw [keys, List.pairwise_map]
    exact hs
  exact ⟨hp, hp.imp ne_of_lt, rfl, by simp [output]⟩

/-- Claim C3: folding is a homomorphism over batch concatenation, and the
final table does not depend on how the lines are partitioned into batches:
folding any batch list `P` into the empty table gives the same table as
running the driver on the concatenated lines `P.flatten`. -/
theorem c3_fold_homomorphism :
    (∀ (t : Table) (A B : List String),
        process_chunk B (process_chunk A t) = process_chunk (A ++ B) t) ∧
    (∀ P : List (List String), foldBatches P [] = wordCounts P.flatten) := by
  constructor
  · intro t A B
    exact (process_chunk_append A B t).symm
  · intro P
    rw [foldBatches_eq, wordCounts_eq]

/-- Claim C4: a failure to open the file aborts the run; a failure to read any
line aborts the run with a non-zero exit code and no output is emitted (all
lines are collected before any counting); the exit code is 0 exactly when
opening succeeded and every line was read successfully. -/
theorem c4_error_handling {ε : Type} :
    (∀ e : ε,
        runMain (Except.error e : Except ε (List (Except ε String))) =
          Except.error e) ∧
    (∀ (rs : List (Except ε String)) (e : ε), Except.error e ∈ rs →
        exitCode (runMain (Except.ok rs)) ≠ 0 ∧
        emitted (runMain (Except.ok rs)) = []) ∧
    (∀ o : Except ε (List (Except ε String)),
        exitCode (runMain o) = 0 ↔
          ∃ rs, o = Except.ok rs ∧ ∀ r ∈ rs, ∃ s, r = Except.ok s) := by
  refine ⟨fun e => rfl, ?_, ?_⟩
  · intro rs e hmem
    obtain ⟨e', he'⟩ := collectLines_error rs e hmem
    have hrun : runMain (Except.ok rs) = Except.error e' := by
      simp [runMain, he']
    rw [hrun]
    exact ⟨by simp [exitCode], rfl⟩
  · intro o
    cases o with
    | error e =>
      simp only [runMain, exitCode]
      constructor
      · intro h
        exact absurd h (by omega)
      · rintro ⟨rs, hrs, -⟩
        exact Except.noConfusion hrs
    | ok rs =>
      cases hc : collectLines rs with
      | error e =>
        have hrun : runMain (Except.ok rs) = Except.error e := by
          simp [runMain, hc]
        rw [hrun]
        simp only [exitCode]
        constructor
        · intro h
          exact absurd h (by omega)
        · rintro ⟨rs', hrs', hall⟩
          obtain ⟨ls, hls⟩ :=
            (collectLines_ok_iff rs).mpr
              (by
                injection hrs' with h'
                exact h' ▸ hall)
          rw [hc] at hls
          exact Except.noConfusion hls
      | ok ls =>
        have hrun : runMain (Except.ok rs) =
            Except.ok (output (wordCounts ls)) := by
          simp [runMain, hc]
        rw [hrun]
        simp only [exitCode]
        constructor
        · intro _
          exact ⟨rs, rfl, (collectLines_ok_iff rs).mp ⟨ls, hc⟩⟩
        · intro _
          trivial

theorem c4_error_handling_witness :
    exitCode
        (runMain (Except.ok [(Except.error "bad byte" : Except String String)])) ≠ 0 ∧
    emitted
        (runMain (Except.ok [(Except.error "bad byte" : Except String String)])) = [] :=
  c4_error_handling.2.1 [Except.error "bad byte"] "bad byte"
    (List.mem_cons_self _ _)

/-- Claim C5: the final counts are order-independent: if the words of batch
`c₁` (across all its lines) are a permutation of the words of batch `c₂`,
folding either batch into the same (sorted) table yields the identical
frequency table. -/
theorem c5_order_independent (c₁ c₂ : List String) (t : Table)
    (hs : Table.Sorted t) (hperm : (wordsOf c₁).Perm (wordsOf c₂)) :
    process_chunk c₁ t = process_chunk c₂ t := by
  apply table_ext _ _ (process_chunk_sorted c₁ t hs)
    (process_chunk_sorted c₂ t hs)
  intro w
  rw [lookup_process_chunk c₁ t w hs, lookup_process_chunk c₂ t w hs,
    hperm.count_eq w]

theorem c5_order_independent_witness :
    process_chunk ["b a"] [] = process_chunk ["a", "b"] [] :=
  c5_order_independent ["b a"] ["a", "b"] [] List.Pairwise.nil (by decide)

/-- Claim C6: counting is case-sensitive and unnormalized: on the two example
lines the final table has exactly 10 keys, stores `The ↦ 2`, `the ↦ 1` and
`dog ↦ 2`, and the sorted output starts with `"The: 2"` (uppercase sorts
before lowercase). -/
theorem c6_case_sensitive_example :
    (wordCounts ["The quick brown fox jumps over the lazy dog",
        "The dog barks"]).length = 10 ∧
    lookup (wordCounts ["The quick brown fox jumps over the lazy dog",
        "The dog barks"]) "The" = some 2 ∧
    lookup (wordCounts ["The quick brown fox jumps over the lazy dog",
        "The dog barks"]) "the" = some 1 ∧
    lookup (wordCounts ["The quick brown fox jumps over the lazy dog",
        "The dog barks"]) "dog" = some 2 ∧
    (output (wordCounts ["The quick brown fox jumps over the lazy dog",
        "The dog barks"])).head? = some "The: 2" := by
  decide

/-- Claim C7: after folding any batch sequence into the initially empty
table, a word is a key exactly when it occurred as a maximal
whitespace-delimited word of the processed input, its stored count is the
exact number of occurrences seen so far, and an update never deletes a key. -/
theorem c7_table_invariant :
    (∀ (bs : List (List String)) (w : String),
        (w ∈ keys (foldBatches bs []) ↔ w ∈ wordsOf bs.flatten) ∧
        getCount (foldBatches bs []) w = (wordsOf bs.flatten).count w) ∧
    (∀ (c : List String) (t : Table), Table.Sorted t →
        ∀ w ∈ keys t, w ∈ keys (process_chunk c t)) := by
  constructor
  · intro bs w
    have hL : lookup (foldBatches bs []) w =
        if (wordsOf bs.flatten).count w = 0 then none
        else some ((wordsOf bs.flatten).count w) := by
      rw [foldBatches_eq, lookup_process_chunk _ _ _ List.Pairwise.nil]
      simp [lookup, addCount]
    constructor
    · constructor
      · intro hmem
        by_contra hnot
        have h0 : (wordsOf bs.flatten).count w = 0 :=
          List.count_eq_zero.mpr hnot
        rw [h0, if_pos rfl] at hL
        exact ((lookup_eq_none_iff _ w).mp hL) hmem
      · intro hmem
        have hc : (wordsOf bs.flatten).count w ≠ 0 := by
          rw [Ne, List.count_eq_zero]
          exact fun h => h hmem
        by_contra hnot
        have hn := (lookup_eq_none_iff _ w).mpr hnot
        rw [hL, if_neg hc] at hn
        exact Option.noConfusion hn
    · rw [foldBatches_eq, getCount,
        lookup_process_chunk _ _ _ List.Pairwise.nil, addCount_getD]
      simp [lookup]
  · intro c t hs w hw
    exact mem_keys_process_chunk_of_mem c t hs w hw

theorem c7_table_invariant_witness :
    ("a" ∈ keys (foldBatches [["a b"]] []) ↔ "a" ∈ wordsOf [["a b"]].flatten) ∧
    "a" ∈ keys (process_chunk ["c"] [("a", 1)]) :=
  ⟨(c7_table_invariant.1 [["a b"]] "a").1,
   c7_table_invariant.2 ["c"] [("a", 1)] (by simp) "a" (by simp [keys])⟩

/-- Claim C8: the driver splits the line sequence into consecutive batches of
at most 10000 lines, in input order (their concatenation is the input), only
the last batch may be smaller (every batch before the last has exactly 10000
lines, and no batch is empty), and an empty input yields zero batches. -/
theorem c8_chunking :
    (∀ lines : List String,
        (chunks 10000 lines).flatten = lines ∧
        (∀ b ∈ chunks 10000 lines, b.length ≤ 10000 ∧ b ≠ []) ∧
        (∀ b ∈ (chunks 10000 lines).dropLast, b.length = 10000)) ∧
    chunks 10000 ([] : List String) = [] := by
  constructor
  · intro lines
    refine ⟨chunks_flatten 10000 (by omega) lines, ?_, ?_⟩
    · exact chunksGo_mem_length 10000 (by omega) lines.length lines le_rfl
    · exact chunksGo_dropLast_length 10000 (by omega) lines.length lines le_rfl
  · rfl

theorem c8_chunking_witness :
    ((["a", "b"] : List String).length ≤ 10000 ∧ (["a", "b"] : List String) ≠ []) ∧
    (chunks 10000 (["a", "b"] : List String)).flatten = ["a", "b"] :=
  ⟨((c8_chunking.1 ["a", "b"]).2.1 ["a", "b"] (by decide)),
   (c8_chunking.1 ["a", "b"]).1⟩

/-- Claim C9: empty input produces no output lines, and both an empty batch
and a batch consisting of an empty line leave any table unchanged (no error
is possible: `process_chunk` is total). -/
theorem c9_empty_noop :
    output (wordCounts []) = [] ∧
    (∀ t : Table, process_chunk [] t = t) ∧
    (∀ t : Table, process_chunk [""] t = t) :=
  ⟨rfl, fun _ => rfl, fun _ => rfl⟩

/-- Claim C10 as stated is false: `process_chunk` quantified over every table
`t` does not guarantee all result counts are at least 1, because a
pre-existing entry with count 0 is left in place. Concretely, for
`t = [("a", 0)]` and the empty chunk the table is unchanged and the count of
`"a"` stays 0. -/
theorem c10_counterexample :
    process_chunk [] [("a", 0)] = [("a", 0)] ∧
    ¬1 ≤ getCount (process_chunk [] [("a", 0)]) "a" := by
  decide

/-- Claim C10, amended: for every table satisfying the `BTreeMap`
representation invariant (sorted keys) whose entries were produced by
counting (all counts at least 1, all keys nonempty and whitespace-free),
`process_chunk` preserves all keys, never decreases a count, and keeps every
count at least 1 and every key a nonempty whitespace-free string. -/
theorem c10_monotone (c : List String) (t : Table) (hs : Table.Sorted t)
    (hpos : ∀ p ∈ t, 1 ≤ p.2)
    (hwf : ∀ p ∈ t, p.1 ≠ "" ∧ ∀ ch ∈ p.1.data, rustIsWhitespace ch = false) :
    (∀ w ∈ keys t, w ∈ keys (process_chunk c t)) ∧
    (∀ w, getCount t w ≤ getCount (process_chunk c t) w) ∧
    (∀ p ∈ process_chunk c t, 1 ≤ p.2) ∧
    (∀ p ∈ process_chunk c t,
        p.1 ≠ "" ∧ ∀ ch ∈ p.1.data, rustIsWhitespace ch = false) := by
  refine ⟨fun w hw => mem_keys_process_chunk_of_mem c t hs w hw, ?_, ?_, ?_⟩
  · intro w
    rw [getCount_process_chunk c t w hs]
    exact Nat.le_add_right _ _
  · rintro ⟨w, n⟩ hp
    have hlk : lookup (process_chunk c t) w = some n :=
      mem_lookup_of_sorted _ w n (process_chunk_sorted c t hs) hp
    rw [lookup_process_chunk c t w hs] at hlk
    by_cases hn : (wordsOf c).count w = 0
    · rw [addCount, if_pos hn] at hlk
      exact hpos (w, n) (lookup_mem t w n hlk)
    · rw [addCount, if_neg hn] at hlk
      have : (lookup t w).getD 0 + (wordsOf c).count w = n :=
        Option.some.inj hlk
      omega
  · intro p hp
    have hpk : p.1 ∈ keys (process_chunk c t) :=
      List.mem_map_of_mem Prod.fst hp
    rw [process_chunk_eq_foldl] at hpk
    rcases mem_keys_foldl_bump _ _ _ hpk with h1 | h1
    · obtain ⟨q, hq, hq1⟩ := List.mem_map.mp h1
      exact hq1 ▸ hwf q hq
    · exact wordsOf_wf c p.1 h1

theorem c10_monotone_witness :
    getCount [] "x" ≤ getCount (process_chunk ["x"] []) "x" :=
  (c10_monotone ["x"] [] List.Pairwise.nil (by simp) (by simp)).2.1 "x"

end WordCount
